import Mathlib

/-!
# Verification of the claude-code-diffs change-extraction and novelty pipeline

Shallow embedding of the core of the repository:

* `SessionParser.extractFileChanges` (src/parsers/session-parser.ts) — walks
  decoded session events and derives file-change records (Edit / Write /
  Delete-via-`rm`).
* `LiveDiffTracker` (src/live-mode/live-diff-tracker.ts) — stateful novelty
  tracker with a seen-set and per-key pending delayed deliveries, modelled as
  an explicit state machine with an event/step relation.
* `HeuristicTracker` (src/diff-tracker/diff-tracker.ts) — editor-event driven
  change detector, modelled as pure state-transition functions parameterised
  by the environment inputs (file contents read after the settle delay,
  exclusion decisions, clock values).

JavaScript strings/regex are modelled over `List Char`; timers are modelled by
a pending-key set plus explicit `fire` events (a timer can fire only while its
key is pending, mirroring `setTimeout`/`clearTimeout`).
-/

namespace ClaudeCodeDiffs

/-! ## Data model (src/types/session-events.ts) -/

/-- Tool-use input payload (`ToolInput`): all fields optional in the source. -/
structure ToolInput where
  file_path : Option String := none
  old_string : Option String := none
  new_string : Option String := none
  content : Option String := none
  command : Option String := none
deriving DecidableEq

/-- One message content item (`MessageContent`), a tagged union. -/
inductive MessageContent where
  | text (t : String)
  | tool_use (id : String) (name : String) (input : ToolInput)
  | tool_result (tool_use_id : String) (content : String)
deriving DecidableEq

/-- The `content` field of a `Message` is `MessageContent[] | string` in the
source; we keep both shapes so JavaScript truthiness can be modelled. -/
inductive MessageContentField where
  | str (s : String)
  | items (l : List MessageContent)
deriving DecidableEq

/-- A decoded message (`Message`); only the fields the extractor reads. -/
structure Message where
  role : String
  content : Option MessageContentField
deriving DecidableEq

/-- One decoded log line (`SessionEvent`); only the fields the extractor
reads. -/
structure SessionEvent where
  parentUuid : Option String
  sessionId : String
  gitBranch : Option String := none
  type : String
  message : Option Message := none
  uuid : String
  timestamp : String
deriving DecidableEq

/-- A file-change record (`FileChange`); optional fields are `Option`,
`none` meaning the property is absent/undefined on the JS object. -/
structure FileChange where
  sessionId : String
  timestamp : String
  toolName : String
  filePath : String
  oldContent : Option String := none
  newContent : Option String := none
  gitBranch : Option String := none
  messageUuid : String
  parentUuid : Option String
  isDeleted : Option Bool := none
  isHeuristic : Option Bool := none
deriving DecidableEq

/-! ## JavaScript string/regex primitives used by the extractor

`session-parser.ts` uses the regex `/\brm\s+(?:-[rf]+\s+)?(.+)/` on the Bash
command, then `split(/\s+/)`, `trim()`, `replace(/['"]/g, '')`.  We model the
relevant JS character classes and the backtracking match of this particular
pattern over `List Char`. -/

/-- JS `\w` word character: `[A-Za-z0-9_]` (used for the `\b` boundary). -/
def isWordChar (c : Char) : Bool :=
  ('a' ≤ c && c ≤ 'z') || ('A' ≤ c && c ≤ 'Z') || ('0' ≤ c && c ≤ '9') || c = '_'

/-- JS `\s` whitespace (the ASCII members; the inputs here are ASCII). -/
def isSpaceChar (c : Char) : Bool :=
  c = ' ' || c = '\t' || c = '\n' || c = '\r' || c = '\x0b' || c = '\x0c'

/-- JS `.` matches any character except a line terminator. -/
def isDotChar (c : Char) : Bool :=
  !(c = '\n' || c = '\r' || c = '\u2028' || c = '\u2029')

/-- Match `(.+)` at the front of `l`: greedy, at least one character; since
nothing follows the capture in the pattern, the capture is the maximal
prefix of non-line-terminator characters. -/
def tryDot (l : List Char) : Option (List Char) :=
  let cap := l.takeWhile isDotChar
  if cap.isEmpty then none else some cap

/-- Backtracking point inside the group after at least one `\s` consumed:
greedily consume further whitespace, falling back to matching `(.+)` at each
earlier stop (longest whitespace run is tried first, as a greedy `\s+`
does). -/
def afterWsGroup : List Char → Option (List Char)
  | [] => tryDot []
  | c :: rest =>
    if isSpaceChar c then (afterWsGroup rest).orElse (fun _ => tryDot (c :: rest))
    else tryDot (c :: rest)

/-- Match the optional flag group `-[rf]+\s+` followed by `(.+)` at the front
of `l`.  `[rf]+` is taken maximally: shrinking it cannot help, because the
character given back is `r`/`f`, which can never satisfy the following
`\s`. -/
def tryGroup (l : List Char) : Option (List Char) :=
  match l with
  | '-' :: rest =>
    let flags := rest.takeWhile (fun c => c = 'r' || c = 'f')
    if flags.isEmpty then none
    else
      match rest.drop flags.length with
      | c :: rest' => if isSpaceChar c then afterWsGroup rest' else none
      | [] => none
  | _ => none

/-- After `\brm\s+`: try the optional group (greedy: present first), then the
bare `(.+)`. -/
def tryRest (l : List Char) : Option (List Char) :=
  (tryGroup l).orElse (fun _ => tryDot l)

/-- Backtracking point after at least one `\s` consumed following `rm`. -/
def afterWs : List Char → Option (List Char)
  | [] => tryRest []
  | c :: rest =>
    if isSpaceChar c then (afterWs rest).orElse (fun _ => tryRest (c :: rest))
    else tryRest (c :: rest)

/-- Try to match `\brm\s+(?:-[rf]+\s+)?(.+)` starting exactly here, given
whether the previous character was a word character (for `\b`). -/
def tryMatchHere (prevIsWord : Bool) (l : List Char) : Option (List Char) :=
  if prevIsWord then none
  else
    match l with
    | 'r' :: 'm' :: c :: rest => if isSpaceChar c then afterWs rest else none
    | _ => none

/-- Leftmost-match scan, as `String.prototype.match` without the `g` flag:
the earliest start index that admits a match wins. -/
def rmSearchAux : Bool → List Char → Option (List Char)
  | _, [] => none
  | prevWord, c :: rest =>
    (tryMatchHere prevWord (c :: rest)).orElse
      (fun _ => rmSearchAux (isWordChar c) rest)

/-- `command.match(/\brm\s+(?:-[rf]+\s+)?(.+)/)`, returning capture group 1. -/
def rmMatch (command : String) : Option String :=
  (rmSearchAux false command.toList).map (fun l => ⟨l⟩)

/-- `str.split(/\s+/)`: pieces between maximal whitespace runs; a leading or
trailing run contributes an empty piece, as in JavaScript. -/
def splitWsGo : List Char → List Char → Bool → List (List Char)
  | [], acc, _ => [acc.reverse]
  | c :: rest, acc, inSep =>
    if isSpaceChar c then
      if inSep then splitWsGo rest acc true
      else acc.reverse :: splitWsGo rest [] true
    else splitWsGo rest (c :: acc) false

/-- `str.split(/\s+/)` on a string. -/
def splitWs (s : String) : List String :=
  (splitWsGo s.toList [] false).map (fun l => ⟨l⟩)

/-- `str.trim()`: strip whitespace from both ends. -/
def trimStr (s : String) : String :=
  ⟨((s.toList.dropWhile isSpaceChar).reverse.dropWhile isSpaceChar).reverse⟩

/-- `str.replace(/['"]/g, '')`: delete every single/double quote character,
surrounding or internal. -/
def removeQuotes (s : String) : String :=
  ⟨s.toList.filter (fun c => !(c = '\'' || c = '"'))⟩

/-- `str.startsWith(pat)` over the character lists. -/
def strStartsWith (s pat : String) : Bool :=
  pat.toList.isPrefixOf s.toList

/-- JS `str.split(sep)` for a one-character string separator. -/
def splitOnCharGo (sep : Char) : List Char → List Char → List (List Char)
  | [], acc => [acc.reverse]
  | c :: rest, acc =>
    if c = sep then acc.reverse :: splitOnCharGo sep rest []
    else splitOnCharGo sep rest (c :: acc)

/-- JS `str.split(sep)` on a string (empty input gives `[""]`, adjacent
separators give empty pieces, as in JavaScript). -/
def splitOnChar (sep : Char) (s : String) : List String :=
  (splitOnCharGo sep s.toList []).map (fun l => ⟨l⟩)

/-! ## Change Extractor (`SessionParser.extractFileChanges`) -/

/-- JS truthiness of an optional string: falsy iff absent or empty. -/
def isFalsyStr : Option String → Bool
  | none => true
  | some s => s = ""

/-- The records pushed for one content item of one assistant event
(the body of the inner `for (const item of content)` loop). -/
def itemChanges (event : SessionEvent) : MessageContent → List FileChange
  | .text _ => []
  | .tool_result _ _ => []
  | .tool_use _ name input =>
    if name = "Edit" || name = "Write" then
      if isFalsyStr input.file_path then []
      else
        let base : FileChange :=
          { sessionId := event.sessionId
            timestamp := event.timestamp
            toolName := name
            filePath := input.file_path.getD ""
            gitBranch := event.gitBranch
            messageUuid := event.uuid
            parentUuid := event.parentUuid }
        if name = "Edit" then
          [{ base with oldContent := input.old_string, newContent := input.new_string }]
        else
          [{ base with newContent := input.content }]
    else if name = "Bash" then
      let command := input.command.getD ""  -- `input.command || ''`
      match rmMatch command with
      | none => []
      | some captured =>
        let filePaths := (splitWs captured).filter
          (fun p => !(p = "") && !(strStartsWith p "-"))
        filePaths.foldl
          (fun acc fp =>
            let cleanPath := removeQuotes (trimStr fp)
            if cleanPath = "" then acc
            else acc ++
              [{ sessionId := event.sessionId
                 timestamp := event.timestamp
                 toolName := "Delete"
                 filePath := cleanPath
                 gitBranch := event.gitBranch
                 messageUuid := event.uuid
                 parentUuid := event.parentUuid
                 isDeleted := some true : FileChange }]) []
    else []

/-- `event.type !== 'assistant' || !event.message?.content` plus
`Array.isArray(...) ? ... : []`: `none` means the event is skipped; a truthy
non-array content gives the empty item list. -/
def contentOf (event : SessionEvent) : Option (List MessageContent) :=
  match event.message with
  | none => none
  | some m =>
    match m.content with
    | none => none
    | some (.str s) => if s = "" then none else some []
    | some (.items l) => some l

/-- The body of the outer `for (const event of events)` loop: the accumulator
grows by the records of each tool-use item, in item order. -/
def eventStep (changes : List FileChange) (event : SessionEvent) : List FileChange :=
  if event.type ≠ "assistant" then changes
  else
    match contentOf event with
    | none => changes
    | some items => items.foldl (fun cs item => cs ++ itemChanges event item) changes

/-- `SessionParser.extractFileChanges`, modelled with the same accumulator
structure as the imperative loops. -/
def extractFileChanges (events : List SessionEvent) : List FileChange :=
  events.foldl eventStep []

/-- In-order concatenation map (specification-side list combinator). -/
def listFlatMap (f : α → List β) : List α → List β
  | [] => []
  | x :: xs => f x ++ listFlatMap f xs

/-- The records of one event, as a pure function (used to state order
preservation). -/
def eventChanges (event : SessionEvent) : List FileChange :=
  if event.type ≠ "assistant" then []
  else
    match contentOf event with
    | none => []
    | some items => listFlatMap (itemChanges event) items

/-! ## Live Novelty Tracker (`LiveDiffTracker`, src/live-mode/live-diff-tracker.ts)

The JS object holds `lastSeenChanges : Set<string>`, `pendingDiffs :
Map<string, Timeout>` and `isEnabled`.  We model the seen-set and the set of
keys with a live timer as insertion-ordered duplicate-free lists (JS `Set`
and `Map` preserve insertion order), the timeout handles themselves being
irrelevant to the properties.  A timer firing is an explicit event that can
deliver only while its key is still pending (a cleared timeout never runs). -/

structure LiveState where
  lastSeenChanges : List String
  pendingDiffs : List String
  isEnabled : Bool
deriving DecidableEq

/-- `LiveDiffTracker.getChangeKey`. -/
def getChangeKey (change : FileChange) : String :=
  change.sessionId ++ ":" ++ change.messageUuid ++ ":" ++ change.filePath

/-- `LiveDiffTracker.setEnabled`: disabling clears every pending timeout
without delivering; enabling touches nothing else. -/
def liveSetEnabled (s : LiveState) (enabled : Bool) : LiveState :=
  { s with isEnabled := enabled
           pendingDiffs := if enabled then s.pendingDiffs else [] }

/-- `LiveDiffTracker.scheduleDiff`: cancel-and-replace any existing timeout
for the key; on the key-set this keeps membership (a `Map.set` on an existing
key keeps its position). -/
def scheduleDiff (s : LiveState) (change : FileChange) : LiveState :=
  let key := getChangeKey change
  { s with pendingDiffs :=
      if key ∈ s.pendingDiffs then s.pendingDiffs else s.pendingDiffs ++ [key] }

/-- The first loop of `processChanges`: walk the records, pushing each record
whose key is unseen onto `newChanges` and adding its key to the seen-set
immediately. -/
def markNew : LiveState → List FileChange → LiveState × List FileChange
  | s, [] => (s, [])
  | s, c :: cs =>
    let key := getChangeKey c
    if key ∈ s.lastSeenChanges then markNew s cs
    else
      let r := markNew
        { s with lastSeenChanges := s.lastSeenChanges ++ [key] } cs
      (r.1, c :: r.2)

/-- The second loop of `processChanges`: schedule each new change. -/
def scheduleAll : LiveState → List FileChange → LiveState
  | s, [] => s
  | s, c :: cs => scheduleAll (scheduleDiff s c) cs

/-- `LiveDiffTracker.processChanges(changes, skipOnStartup)`: early return
when disabled or empty; early return when `skipOnStartup` (before any
seen-set update); otherwise mark-then-schedule. -/
def processChanges (s : LiveState) (changes : List FileChange)
    (skipOnStartup : Bool) : LiveState :=
  if !s.isEnabled || changes.isEmpty then s
  else if skipOnStartup then s
  else
    let r := markNew s changes
    scheduleAll r.1 r.2

/-- `LiveDiffTracker.reset`: clear the seen-set and cancel all pending
timeouts; the enabled flag is untouched. -/
def liveReset (s : LiveState) : LiveState :=
  { s with lastSeenChanges := [], pendingDiffs := [] }

/-- The events the tracker reacts to.  `fire key` is the expiry of the
timeout scheduled for `key`. -/
inductive LiveEvent where
  | process (changes : List FileChange) (skipOnStartup : Bool)
  | setEnabled (b : Bool)
  | fire (key : String)
  | reset
deriving DecidableEq

/-- One reaction step; the second component lists the keys delivered (diffs
opened) during this step.  A `fire` delivers only if the key still has a
pending timeout, and the `finally` block removes it from the pending map. -/
def liveStep (s : LiveState) : LiveEvent → LiveState × List String
  | .process cs skip => (processChanges s cs skip, [])
  | .setEnabled b => (liveSetEnabled s b, [])
  | .fire k =>
    if k ∈ s.pendingDiffs then
      ({ s with pendingDiffs := s.pendingDiffs.filter (· ≠ k) }, [k])
    else (s, [])
  | .reset => (liveReset s, [])

/-- Run a sequence of events, concatenating the delivered keys in order. -/
def liveRun (s : LiveState) : List LiveEvent → LiveState × List String
  | [] => (s, [])
  | e :: es =>
    let r := liveStep s e
    let r' := liveRun r.1 es
    (r'.1, r.2 ++ r'.2)

/-- The tracker's state as constructed (`lastSeenChanges`/`pendingDiffs`
empty, disabled until `setEnabled`). -/
def liveInit : LiveState := { lastSeenChanges := [], pendingDiffs := [], isEnabled := false }

/-! ## Heuristic Change Detector (`HeuristicTracker`, src/diff-tracker/diff-tracker.ts)

State: `fileSnapshots : Map<uri, content>`, `pendingChanges : Map<uri,
Timeout>` (modelled by the key list), `heuristicChanges : FileChange[]`,
`isEnabled`.  The handlers interleave with the host: content reads after the
settle delay, the `shouldExcludeFile` configuration decision, `Date.now()`
and the workspace-relative path are environment inputs and appear as
parameters.  Each `setTimeout` body here runs unconditionally once the host
fires it, so a handler together with its timer body is one transition. -/

structure HeuristicState where
  fileSnapshots : List (String × String)
  pendingChanges : List String
  heuristicChanges : List FileChange
  isEnabled : Bool
deriving DecidableEq

/-- `Map.set`: replace in place if present, else append. -/
def setSnap (m : List (String × String)) (k v : String) : List (String × String) :=
  if (m.lookup k).isSome then m.map (fun p => if p.1 = k then (k, v) else p)
  else m ++ [(k, v)]

/-- `HeuristicTracker.getHeuristicChanges`. -/
def getHeuristicChanges (s : HeuristicState) : List FileChange :=
  s.heuristicChanges

/-- The synthetic record `showHeuristicDiff` builds.  `ts` stands for
`new Date().toISOString()` and `uuid` for `heuristic-${Date.now()}`. -/
def heuristicRecord (fileName beforeContent afterContent ts uuid : String) : FileChange :=
  { sessionId := "heuristic"
    timestamp := ts
    toolName := "Heuristic"
    filePath := fileName
    oldContent := some beforeContent
    newContent := some afterContent
    messageUuid := uuid
    parentUuid := none
    isHeuristic := some true }

/-- `HeuristicTracker.showHeuristicDiff`: manufacture and store one synthetic
record. -/
def showHeuristicDiff (s : HeuristicState) (fileName beforeContent afterContent : String)
    (ts uuid : String) : HeuristicState :=
  { s with heuristicChanges := s.heuristicChanges ++
      [heuristicRecord fileName beforeContent afterContent ts uuid] }

/-- A visible document at enable time (input to `captureInitialSnapshots`):
its uri string, text, whether its scheme is `file`, and the
`shouldExcludeFile` decision for it. -/
structure VisibleDoc where
  uriStr : String
  text : String
  isFileScheme : Bool
  excluded : Bool

/-- `HeuristicTracker.captureInitialSnapshots` over the visible editors. -/
def captureInitialSnapshots (s : HeuristicState) (docs : List VisibleDoc) : HeuristicState :=
  let snaps := docs.foldl
    (fun m d =>
      if !d.isFileScheme then m
      else if d.excluded then m
      else setSnap m d.uriStr d.text) s.fileSnapshots
  { s with fileSnapshots := snaps }

/-- `HeuristicTracker.setEnabled`: enabling snapshots the visible editors
(and installs the watcher, an external effect); disabling clears the
snapshot map, cancels every pending timeout and clears the pending map.  The
accumulated `heuristicChanges` list is touched by neither branch. -/
def hSetEnabled (s : HeuristicState) (enabled : Bool) (docs : List VisibleDoc) : HeuristicState :=
  if enabled then captureInitialSnapshots { s with isEnabled := true } docs
  else { s with isEnabled := false, fileSnapshots := [], pendingChanges := [] }

/-- `HeuristicTracker.reset`: clear snapshots and cancel all pending
timeouts; `heuristicChanges` and the enabled flag are untouched. -/
def hReset (s : HeuristicState) : HeuristicState :=
  { s with fileSnapshots := [], pendingChanges := [] }

/-- Trigger path a — `fileWatcher.onDidCreate` plus its settle-delay timer
body: for a non-excluded creation, if the content read after the delay is
non-empty, snapshot it and store a record with empty before-content. -/
def onDidCreate (s : HeuristicState) (uriStr fsPath : String) (excluded : Bool)
    (contentAfterDelay : String) (ts uuid : String) : HeuristicState :=
  if !s.isEnabled then s
  else if excluded then s
  else if contentAfterDelay.length > 0 then
    showHeuristicDiff
      { s with fileSnapshots := setSnap s.fileSnapshots uriStr contentAfterDelay }
      fsPath "" contentAfterDelay ts uuid
  else s

/-- `relativePath.split(path.sep).length` (separator normalised to `/`). -/
def pathDepth (relativePath : String) : Nat :=
  (splitOnChar '/' relativePath).length

/-- Trigger path b — `fileWatcher.onDidChange` plus its settle-delay timer
body.  Only a path with no existing snapshot is considered; with a workspace
open, a relative depth above 3 is skipped; after the delay, only non-empty
content strictly below 10000 characters is snapshotted and recorded (with
empty before-content).  `relativePath` is `path.relative(workspaceRoot,
uri.fsPath)` supplied by the host; `hasWorkspace` tells whether a workspace
folder exists (the depth check is inside that guard in the source). -/
def onDidChange (s : HeuristicState) (uriStr fsPath : String) (excluded : Bool)
    (hasWorkspace : Bool) (relativePath : String)
    (contentAfterDelay : String) (ts uuid : String) : HeuristicState :=
  if !s.isEnabled then s
  else if excluded then s
  else if (s.fileSnapshots.lookup uriStr).isSome then s
  else if hasWorkspace && pathDepth relativePath > 3 then s
  else if contentAfterDelay.length > 0 && contentAfterDelay.length < 10000 then
    showHeuristicDiff
      { s with fileSnapshots := setSnap s.fileSnapshots uriStr contentAfterDelay }
      fsPath "" contentAfterDelay ts uuid
  else s

/-- The before-content captured by `onWillSaveTextDocument`:
`this.fileSnapshots.get(uri) || ''`. -/
def willSaveCapture (s : HeuristicState) (uriStr : String) : String :=
  ((s.fileSnapshots.lookup uriStr).getD "")

/-- Trigger path c, first half — `onWillSaveTextDocument` before the timer:
cancel-and-replace the pending timeout for this uri. -/
def onWillSave (s : HeuristicState) (uriStr : String) (excluded isFileScheme : Bool) :
    HeuristicState :=
  if !s.isEnabled then s
  else if !isFileScheme then s
  else if excluded then s
  else { s with pendingChanges :=
    if uriStr ∈ s.pendingChanges then s.pendingChanges else s.pendingChanges ++ [uriStr] }

/-- Trigger path c, second half — the save timer body: re-read the saved
text; only an actual difference from the captured before-content stores a
record (whose `oldContent` is that captured content) and refreshes the
snapshot; the `finally` block always removes the pending entry. -/
def saveTimerFire (s : HeuristicState) (uriStr fileName : String)
    (originalContent savedContent : String) (ts uuid : String) : HeuristicState :=
  let s1 :=
    if originalContent ≠ savedContent then
      { showHeuristicDiff s fileName originalContent savedContent ts uuid with
        fileSnapshots := setSnap s.fileSnapshots uriStr savedContent }
    else s
  { s1 with pendingChanges := s1.pendingChanges.filter (· ≠ uriStr) }

/-- Trigger path d — `onDidOpenTextDocument` plus its timer body: store a
snapshot; only a genuinely new (`isUntitled`) document with non-empty
content also stores a record with empty before-content. -/
def onDidOpen (s : HeuristicState) (uriStr fileName : String)
    (excluded isFileScheme isUntitled : Bool) (content : String)
    (ts uuid : String) : HeuristicState :=
  if !s.isEnabled then s
  else if !isFileScheme then s
  else if excluded then s
  else
    let isNotInSnapshots := (s.fileSnapshots.lookup uriStr).isNone
    let s1 := { s with fileSnapshots := setSnap s.fileSnapshots uriStr content }
    if isNotInSnapshots && content.length > 0 && isUntitled then
      showHeuristicDiff s1 fileName "" content ts uuid
    else s1

/-- `onDidCloseTextDocument`: drop the snapshot and cancel the pending
timeout for the closed document. -/
def onDidClose (s : HeuristicState) (uriStr : String) : HeuristicState :=
  if !s.isEnabled then s
  else { s with fileSnapshots := s.fileSnapshots.filter (fun p => p.1 ≠ uriStr)
                pendingChanges := s.pendingChanges.filter (· ≠ uriStr) }

/-- A generic assistant event whose single content item is one tool use
(parameterised over all provenance metadata). -/
def mkToolUseEvent (par : Option String) (sid : String) (gb : Option String)
    (uuid ts id name : String) (input : ToolInput) : SessionEvent :=
  { parentUuid := par
    sessionId := sid
    gitBranch := gb
    type := "assistant"
    message := some
      { role := "assistant"
        content := some (.items [.tool_use id name input]) }
    uuid := uuid
    timestamp := ts }

/-- The Delete record the Bash-`rm` branch builds from event `e` for one
cleaned path. -/
def bashDelete (e : SessionEvent) (cleanPath : String) : FileChange :=
  { sessionId := e.sessionId
    timestamp := e.timestamp
    toolName := "Delete"
    filePath := cleanPath
    gitBranch := e.gitBranch
    messageUuid := e.uuid
    parentUuid := e.parentUuid
    isDeleted := some true }

end ClaudeCodeDiffs

namespace ClaudeCodeDiffs

/-! ## Helper lemmas -/

theorem foldl_append_eq (f : α → List β) :
    ∀ (l : List α) (init : List β),
      l.foldl (fun acc x => acc ++ f x) init = init ++ listFlatMap f l
  | [], init => by simp [listFlatMap]
  | x :: xs, init => by
    simp only [List.foldl_cons, listFlatMap, foldl_append_eq f xs (init ++ f x),
      List.append_assoc]

theorem listFlatMap_append (f : α → List β) (l₁ l₂ : List α) :
    listFlatMap f (l₁ ++ l₂) = listFlatMap f l₁ ++ listFlatMap f l₂ := by
  induction l₁ with
  | nil => simp [listFlatMap]
  | cons x xs ih => simp [listFlatMap, ih, List.append_assoc]

theorem eventStep_eq (changes : List FileChange) (event : SessionEvent) :
    eventStep changes event = changes ++ eventChanges event := by
  unfold eventStep eventChanges
  by_cases h : event.type = "assistant"
  · simp only [h, ne_eq, not_true_eq_false, if_false]
    cases hc : contentOf event with
    | none => simp
    | some items => exact foldl_append_eq (itemChanges event) items changes
  · simp [h]

theorem foldl_eventStep (events : List SessionEvent) :
    ∀ init, events.foldl eventStep init = init ++ listFlatMap eventChanges events := by
  induction events with
  | nil => intro init; simp [listFlatMap]
  | cons e es ih =>
    intro init
    simp only [List.foldl_cons, listFlatMap, eventStep_eq, ih (init ++ eventChanges e),
      List.append_assoc]

/-! ## C8 — extraction is order-preserving -/

/-- C8: `extractFileChanges` lists its records in exactly the order in which
their source events and content items occur in the input: the output is the
in-order concatenation of the per-event record lists (each of which is the
in-order concatenation of per-item record lists), and extraction distributes
over concatenation of the event sequence — it never reorders by timestamp. -/
theorem extractFileChanges_order_preserving :
    (∀ events, extractFileChanges events = listFlatMap eventChanges events) ∧
    (∀ es₁ es₂, extractFileChanges (es₁ ++ es₂) =
      extractFileChanges es₁ ++ extractFileChanges es₂) := by
  have h : ∀ events, extractFileChanges events = listFlatMap eventChanges events := by
    intro events
    have := foldl_eventStep events []
    simpa [extractFileChanges] using this
  refine ⟨h, fun es₁ es₂ => ?_⟩
  rw [h, h, h, listFlatMap_append]

/-! ## C4 — Bash `rm` with several paths and with flags -/

/-- C4: an assistant event whose Bash tool-use runs
`rm file1.txt file2.txt` yields exactly two Delete records (`isDeleted`
true, no content fields) sharing the event's `messageUuid`, `parentUuid` and
`timestamp`; `rm -rf ./build` yields exactly one Delete record for
`./build`, the `-rf` flag token being excluded from the path list. -/
theorem bash_rm_delete_records (par : Option String) (sid : String)
    (gb : Option String) (uuid ts id : String) :
    extractFileChanges
        [mkToolUseEvent par sid gb uuid ts id "Bash"
          { command := some "rm file1.txt file2.txt" }] =
      [bashDelete (mkToolUseEvent par sid gb uuid ts id "Bash"
          { command := some "rm file1.txt file2.txt" }) "file1.txt",
       bashDelete (mkToolUseEvent par sid gb uuid ts id "Bash"
          { command := some "rm file1.txt file2.txt" }) "file2.txt"] ∧
    extractFileChanges
        [mkToolUseEvent par sid gb uuid ts id "Bash"
          { command := some "rm -rf ./build" }] =
      [bashDelete (mkToolUseEvent par sid gb uuid ts id "Bash"
          { command := some "rm -rf ./build" }) "./build"] :=
  ⟨rfl, rfl⟩

/-! ## C9 — `rm` tokenization: split on whitespace before quote removal -/

/-- C9: the `rm` pipeline splits the captured text on whitespace first and
only then deletes every quote character of each fragment: `rm "my file.txt"`
yields one Delete record per whitespace-separated fragment (`my` and
`file.txt`, all quotes gone), and an internal quote (`rm fi"le.txt`) is
removed as well, not only surrounding ones. -/
theorem rm_split_before_quote_removal (par : Option String) (sid : String)
    (gb : Option String) (uuid ts id : String) :
    extractFileChanges
        [mkToolUseEvent par sid gb uuid ts id "Bash"
          { command := some "rm \"my file.txt\"" }] =
      [bashDelete (mkToolUseEvent par sid gb uuid ts id "Bash"
          { command := some "rm \"my file.txt\"" }) "my",
       bashDelete (mkToolUseEvent par sid gb uuid ts id "Bash"
          { command := some "rm \"my file.txt\"" }) "file.txt"] ∧
    extractFileChanges
        [mkToolUseEvent par sid gb uuid ts id "Bash"
          { command := some "rm fi\"le.txt" }] =
      [bashDelete (mkToolUseEvent par sid gb uuid ts id "Bash"
          { command := some "rm fi\"le.txt" }) "file.txt"] :=
  ⟨rfl, rfl⟩

/-! ## Lemmas about the Live Novelty Tracker -/

theorem markNew_pending (cs : List FileChange) :
    ∀ s : LiveState, (markNew s cs).1.pendingDiffs = s.pendingDiffs := by
  induction cs with
  | nil => intro s; rfl
  | cons c cs ih =>
    intro s
    unfold markNew
    by_cases h : getChangeKey c ∈ s.lastSeenChanges
    · simp only [if_pos h]; exact ih s
    · simp only [if_neg h]; exact ih _

theorem markNew_isEnabled (cs : List FileChange) :
    ∀ s : LiveState, (markNew s cs).1.isEnabled = s.isEnabled := by
  induction cs with
  | nil => intro s; rfl
  | cons c cs ih =>
    intro s
    unfold markNew
    by_cases h : getChangeKey c ∈ s.lastSeenChanges
    · simp only [if_pos h]; exact ih s
    · simp only [if_neg h]; exact ih _

theorem markNew_seen_mono (cs : List FileChange) :
    ∀ (s : LiveState) (x : String), x ∈ s.lastSeenChanges →
      x ∈ (markNew s cs).1.lastSeenChanges := by
  induction cs with
  | nil => intro s x hx; exact hx
  | cons c cs ih =>
    intro s x hx
    unfold markNew
    by_cases h : getChangeKey c ∈ s.lastSeenChanges
    · simp only [if_pos h]; exact ih s x hx
    · simp only [if_neg h]
      exact ih _ x (List.mem_append_left _ hx)

theorem markNew_seen_all (cs : List FileChange) :
    ∀ (s : LiveState) (c : FileChange), c ∈ cs →
      getChangeKey c ∈ (markNew s cs).1.lastSeenChanges := by
  induction cs with
  | nil => intro s c hc; cases hc
  | cons c' cs ih =>
    intro s c hc
    unfold markNew
    by_cases h : getChangeKey c' ∈ s.lastSeenChanges
    · simp only [if_pos h]
      rcases List.mem_cons.mp hc with rfl | hc'
      · exact markNew_seen_mono cs s _ h
      · exact ih s c hc'
    · simp only [if_neg h]
      rcases List.mem_cons.mp hc with rfl | hc'
      · exact markNew_seen_mono cs _ _ (by simp)
      · exact ih _ c hc'

theorem markNew_news_keys (cs : List FileChange) :
    ∀ (s : LiveState) (c : FileChange), c ∈ (markNew s cs).2 →
      getChangeKey c ∉ s.lastSeenChanges ∧
      getChangeKey c ∈ (markNew s cs).1.lastSeenChanges := by
  induction cs with
  | nil => intro s c hc; cases hc
  | cons c' cs ih =>
    intro s c hc
    unfold markNew at hc ⊢
    by_cases h : getChangeKey c' ∈ s.lastSeenChanges
    · simp only [if_pos h] at hc ⊢; exact ih s c hc
    · simp only [if_neg h] at hc ⊢
      rcases List.mem_cons.mp hc with rfl | hc'
      · exact ⟨h, markNew_seen_mono cs _ _ (by simp)⟩
      · refine ⟨fun hs => (ih _ c hc').1 (List.mem_append_left _ hs), (ih _ c hc').2⟩

theorem markNew_collects (cs : List FileChange) :
    ∀ (s : LiveState) (k : String), k ∉ s.lastSeenChanges →
      k ∈ cs.map getChangeKey → k ∈ (markNew s cs).2.map getChangeKey := by
  induction cs with
  | nil => intro s k _ hk; cases hk
  | cons c cs ih =>
    intro s k hks hk
    unfold markNew
    by_cases h : getChangeKey c ∈ s.lastSeenChanges
    · simp only [if_pos h]
      rcases List.mem_map.mp hk with ⟨c', hc', rfl⟩
      rcases List.mem_cons.mp hc' with rfl | hc''
      · exact absurd h hks
      · exact ih s _ hks (List.mem_map_of_mem _ hc'')
    · simp only [if_neg h, List.map_cons]
      rcases List.mem_map.mp hk with ⟨c', hc', rfl⟩
      rcases List.mem_cons.mp hc' with rfl | hc''
      · exact List.mem_cons_self _ _
      · by_cases hkey : getChangeKey c' = getChangeKey c
        · rw [hkey]; exact List.mem_cons_self _ _
        · refine List.mem_cons_of_mem _ (ih _ _ ?_ (List.mem_map_of_mem _ hc''))
          simp only [List.mem_append, List.mem_singleton]
          rintro (hs | hs)
          · exact hks hs
          · exact hkey hs

theorem scheduleDiff_pending_mem (s : LiveState) (c : FileChange) (k : String) :
    k ∈ (scheduleDiff s c).pendingDiffs ↔
      k ∈ s.pendingDiffs ∨ k = getChangeKey c := by
  unfold scheduleDiff
  by_cases h : getChangeKey c ∈ s.pendingDiffs
  · simp only [if_pos h]
    constructor
    · exact fun hk => Or.inl hk
    · rintro (hk | rfl)
      · exact hk
      · exact h
  · simp [if_neg h, List.mem_append, or_comm]

theorem scheduleDiff_seen (s : LiveState) (c : FileChange) :
    (scheduleDiff s c).lastSeenChanges = s.lastSeenChanges := rfl

theorem scheduleAll_seen (l : List FileChange) :
    ∀ s : LiveState, (scheduleAll s l).lastSeenChanges = s.lastSeenChanges := by
  induction l with
  | nil => intro s; rfl
  | cons c cs ih => intro s; exact ih (scheduleDiff s c)

theorem scheduleAll_isEnabled (l : List FileChange) :
    ∀ s : LiveState, (scheduleAll s l).isEnabled = s.isEnabled := by
  induction l with
  | nil => intro s; rfl
  | cons c cs ih => intro s; exact ih (scheduleDiff s c)

theorem scheduleAll_pending_mem (l : List FileChange) :
    ∀ (s : LiveState) (k : String),
      k ∈ (scheduleAll s l).pendingDiffs ↔
        k ∈ s.pendingDiffs ∨ ∃ c ∈ l, getChangeKey c = k := by
  induction l with
  | nil => intro s k; simp [scheduleAll]
  | cons c cs ih =>
    intro s k
    show k ∈ (scheduleAll (scheduleDiff s c) cs).pendingDiffs ↔ _
    rw [ih, scheduleDiff_pending_mem]
    constructor
    · rintro ((hk | rfl) | ⟨c', hc', rfl⟩)
      · exact Or.inl hk
      · exact Or.inr ⟨c, List.mem_cons_self _ _, rfl⟩
      · exact Or.inr ⟨c', List.mem_cons_of_mem _ hc', rfl⟩
    · rintro (hk | ⟨c', hc', rfl⟩)
      · exact Or.inl (Or.inl hk)
      · rcases List.mem_cons.mp hc' with rfl | hc''
        · exact Or.inl (Or.inr rfl)
        · exact Or.inr ⟨c', hc'', rfl⟩

theorem processChanges_seen_mono (s : LiveState) (cs : List FileChange) (b : Bool)
    (x : String) (hx : x ∈ s.lastSeenChanges) :
    x ∈ (processChanges s cs b).lastSeenChanges := by
  unfold processChanges
  split
  · exact hx
  · split
    · exact hx
    · rw [scheduleAll_seen]
      exact markNew_seen_mono cs s x hx

theorem processChanges_pending_sub (s : LiveState) (cs : List FileChange) (b : Bool)
    (k : String) (hk : k ∈ (processChanges s cs b).pendingDiffs) :
    k ∈ s.pendingDiffs ∨ k ∈ (processChanges s cs b).lastSeenChanges := by
  unfold processChanges at hk ⊢
  split at hk
  · exact Or.inl hk
  · split at hk
    · exact Or.inl hk
    · rename_i h1 h2
      simp only [if_neg h1, if_neg h2]
      rcases (scheduleAll_pending_mem _ _ _).mp hk with hk' | ⟨c, hc, rfl⟩
      · rw [markNew_pending] at hk'
        exact Or.inl hk'
      · right
        rw [scheduleAll_seen]
        exact (markNew_news_keys cs s c hc).2

theorem processChanges_pending_of_seen (s : LiveState) (cs : List FileChange) (b : Bool)
    (k : String) (hk : k ∈ s.lastSeenChanges) :
    k ∈ (processChanges s cs b).pendingDiffs ↔ k ∈ s.pendingDiffs := by
  unfold processChanges
  split
  · exact Iff.rfl
  · split
    · exact Iff.rfl
    · rw [scheduleAll_pending_mem, markNew_pending]
      constructor
      · rintro (h | ⟨c, hc, rfl⟩)
        · exact h
        · exact absurd hk (markNew_news_keys cs s c hc).1
      · exact Or.inl

/-- The seen-set/pending invariant: every pending key has been seen. -/
def SeenInv (k : String) (s : LiveState) : Prop :=
  k ∈ s.pendingDiffs → k ∈ s.lastSeenChanges

theorem processChanges_seenInv (s : LiveState) (cs : List FileChange) (b : Bool)
    (k : String) (hinv : SeenInv k s) : SeenInv k (processChanges s cs b) := by
  intro hk
  rcases processChanges_pending_sub s cs b k hk with h | h
  · exact processChanges_seen_mono s cs b k (hinv h)
  · exact h

/-- `0/1` indicator of a decidable proposition. -/
def indicator (p : Prop) [Decidable p] : Nat := if p then 1 else 0

theorem indicator_le_one (p : Prop) [Decidable p] : indicator p ≤ 1 := by
  unfold indicator; split <;> simp

theorem processChanges_key_bound (s : LiveState) (cs : List FileChange) (b : Bool)
    (k : String) :
    indicator (k ∉ (processChanges s cs b).lastSeenChanges)
        + indicator (k ∈ (processChanges s cs b).pendingDiffs) ≤
      indicator (k ∉ s.lastSeenChanges) + indicator (k ∈ s.pendingDiffs) := by
  by_cases hk : k ∈ s.lastSeenChanges
  · have h1 : k ∈ (processChanges s cs b).lastSeenChanges :=
      processChanges_seen_mono s cs b k hk
    have h2 := processChanges_pending_of_seen s cs b k hk
    simp only [indicator, if_neg (not_not_intro h1), if_neg (not_not_intro hk)]
    by_cases h3 : k ∈ s.pendingDiffs
    · simp [h2, h3]
    · simp [h2, h3]
  · by_cases hk' : k ∈ (processChanges s cs b).lastSeenChanges
    · have h0 : indicator (k ∉ (processChanges s cs b).lastSeenChanges) = 0 := by
        simp [indicator, hk']
      rw [h0, Nat.zero_add]
      calc indicator (k ∈ (processChanges s cs b).pendingDiffs) ≤ 1 := indicator_le_one _
        _ ≤ indicator (k ∉ s.lastSeenChanges) + indicator (k ∈ s.pendingDiffs) := by
            have : indicator (k ∉ s.lastSeenChanges) = 1 := by simp [indicator, hk]
            rw [this]
            exact Nat.le_add_right 1 _
    · have hpend : k ∈ (processChanges s cs b).pendingDiffs → k ∈ s.pendingDiffs := by
        intro h
        rcases processChanges_pending_sub s cs b k h with h' | h'
        · exact h'
        · exact absurd h' hk'
      have hmono : indicator (k ∈ (processChanges s cs b).pendingDiffs) ≤
          indicator (k ∈ s.pendingDiffs) := by
        by_cases h : k ∈ (processChanges s cs b).pendingDiffs
        · simp [indicator, h, hpend h]
        · simp [indicator, h]
      have hseen : indicator (k ∉ (processChanges s cs b).lastSeenChanges) ≤
          indicator (k ∉ s.lastSeenChanges) := by
        simp [indicator, hk, hk']
      exact Nat.add_le_add hseen hmono

theorem liveRun_key_bound (k : String) :
    ∀ (evts : List LiveEvent) (s : LiveState),
      (∀ e ∈ evts, e ≠ LiveEvent.reset) → SeenInv k s →
      (liveRun s evts).2.count k ≤
        indicator (k ∉ s.lastSeenChanges) + indicator (k ∈ s.pendingDiffs) := by
  intro evts
  induction evts with
  | nil => intro s _ _; simp [liveRun]
  | cons e es ih =>
    intro s hnr hinv
    have hnr' : ∀ e' ∈ es, e' ≠ LiveEvent.reset :=
      fun e' he' => hnr e' (List.mem_cons_of_mem _ he')
    show ((liveStep s e).2 ++ (liveRun (liveStep s e).1 es).2).count k ≤ _
    rw [List.count_append]
    cases e with
    | process cs skip =>
      have hstep : liveStep s (.process cs skip) = (processChanges s cs skip, []) := rfl
      rw [hstep]
      simp only [List.count_nil, Nat.zero_add]
      calc (liveRun (processChanges s cs skip) es).2.count k
          ≤ indicator (k ∉ (processChanges s cs skip).lastSeenChanges)
            + indicator (k ∈ (processChanges s cs skip).pendingDiffs) :=
            ih _ hnr' (processChanges_seenInv s cs skip k hinv)
        _ ≤ _ := processChanges_key_bound s cs skip k
    | setEnabled b =>
      have hstep : liveStep s (.setEnabled b) = (liveSetEnabled s b, []) := rfl
      rw [hstep]
      simp only [List.count_nil, Nat.zero_add]
      have hinv' : SeenInv k (liveSetEnabled s b) := by
        intro hp
        unfold liveSetEnabled at hp
        cases b with
        | true => exact hinv hp
        | false => simp at hp
      calc (liveRun (liveSetEnabled s b) es).2.count k
          ≤ indicator (k ∉ (liveSetEnabled s b).lastSeenChanges)
            + indicator (k ∈ (liveSetEnabled s b).pendingDiffs) := ih _ hnr' hinv'
        _ ≤ _ := by
            unfold liveSetEnabled
            cases b with
            | true => exact Nat.le_refl _
            | false =>
              apply Nat.add_le_add (Nat.le_refl _)
              simp [indicator]
    | fire k' =>
      by_cases hp : k' ∈ s.pendingDiffs
      · have hstep : liveStep s (.fire k') =
            ({ s with pendingDiffs := s.pendingDiffs.filter (· ≠ k') }, [k']) := by
          simp [liveStep, hp]
        rw [hstep]
        have hinv' : SeenInv k
            { s with pendingDiffs := s.pendingDiffs.filter (· ≠ k') } := by
          intro hk
          exact hinv (List.mem_of_mem_filter hk)
        by_cases hkk : k = k'
        · subst hkk
          have hseen : k ∈ s.lastSeenChanges := hinv hp
          have hnot : k ∉ (s.pendingDiffs.filter (· ≠ k)) := by
            simp [List.mem_filter]
          have hbound := ih _ hnr' hinv'
          have hz : indicator
              (k ∉ ({ s with pendingDiffs := s.pendingDiffs.filter (· ≠ k) } :
                LiveState).lastSeenChanges)
              + indicator
              (k ∈ ({ s with pendingDiffs := s.pendingDiffs.filter (· ≠ k) } :
                LiveState).pendingDiffs) = 0 := by
            simp [indicator, hseen, hnot]
          rw [hz] at hbound
          have hrest := Nat.le_zero.mp hbound
          rw [hrest]
          simp [indicator, hseen, hp]
        · have hd : List.count k [k'] = 0 := by
            simp [List.count_cons, hkk]
          rw [hd, Nat.zero_add]
          have hmem : (k ∈ s.pendingDiffs.filter (· ≠ k')) ↔ k ∈ s.pendingDiffs := by
            simp [List.mem_filter, hkk]
          calc (liveRun { s with pendingDiffs := s.pendingDiffs.filter (· ≠ k') } es).2.count k
              ≤ indicator
                  (k ∉ ({ s with pendingDiffs := s.pendingDiffs.filter (· ≠ k') } :
                    LiveState).lastSeenChanges)
                + indicator
                  (k ∈ ({ s with pendingDiffs := s.pendingDiffs.filter (· ≠ k') } :
                    LiveState).pendingDiffs) := ih _ hnr' hinv'
            _ = indicator (k ∉ s.lastSeenChanges) + indicator (k ∈ s.pendingDiffs) := by
                by_cases hm : k ∈ s.pendingDiffs
                · simp [indicator, hmem, hm, hkk]
                · simp [indicator, hmem, hm, hkk]
      · have hstep : liveStep s (.fire k') = (s, []) := by
          simp [liveStep, hp]
        rw [hstep]
        simp only [List.count_nil, Nat.zero_add]
        exact ih s hnr' hinv
    | reset => exact absurd rfl (hnr _ (List.mem_cons_self _ _))

/-- A sample record used to instantiate the tracker theorems. -/
def sampleChange : FileChange :=
  { sessionId := "s1"
    timestamp := "2024-01-01T00:00:00Z"
    toolName := "Edit"
    filePath := "/tmp/a.txt"
    oldContent := some "x"
    newContent := some "y"
    messageUuid := "u1"
    parentUuid := some "p1" }

/-! ## C1 — suppression and the seen-set -/

/-- C1 counterexample: on an enabled tracker with an empty seen-set, a
suppressed `processChanges` call leaves the seen-set empty (the record's key
is NOT marked seen), and resubmitting the very same record without
suppression schedules a new delivery — so suppression does not merely omit
scheduling, contradicting the claim. -/
theorem processChanges_suppress_cex :
    (processChanges { lastSeenChanges := [], pendingDiffs := [], isEnabled := true }
        [sampleChange] true).lastSeenChanges = [] ∧
    (processChanges
        (processChanges { lastSeenChanges := [], pendingDiffs := [], isEnabled := true }
          [sampleChange] true)
        [sampleChange] false).pendingDiffs = [getChangeKey sampleChange] :=
  ⟨rfl, rfl⟩

/-- C1 amended: when suppression (`skipOnStartup`) is requested,
`processChanges` returns immediately and changes nothing — no key is added
to the seen-set and nothing is scheduled; only on a non-suppressed call on
an enabled tracker is every record's key added to the seen-set, and every
previously-unseen key scheduled, so a later non-suppressed call with the
same records does schedule them. -/
theorem processChanges_suppress_amended (s : LiveState) (changes : List FileChange)
    (h : s.isEnabled = true) :
    processChanges s changes true = s ∧
    ∀ c ∈ changes,
      getChangeKey c ∈ (processChanges s changes false).lastSeenChanges ∧
      (getChangeKey c ∉ s.lastSeenChanges →
        getChangeKey c ∈ (processChanges s changes false).pendingDiffs) := by
  constructor
  · unfold processChanges
    split
    · rfl
    · rfl
  · intro c hc
    have hne : changes.isEmpty = false := by
      cases changes
      · cases hc
      · rfl
    have hmain : processChanges s changes false =
        scheduleAll (markNew s changes).1 (markNew s changes).2 := by
      simp [processChanges, h, hne]
    rw [hmain]
    constructor
    · rw [scheduleAll_seen]
      exact markNew_seen_all changes s c hc
    · intro hunseen
      have hkmap : getChangeKey c ∈ (markNew s changes).2.map getChangeKey :=
        markNew_collects changes s _ hunseen (List.mem_map_of_mem _ hc)
      rcases List.mem_map.mp hkmap with ⟨c', hc', hkey⟩
      exact (scheduleAll_pending_mem _ _ _).mpr (Or.inr ⟨c', hc', hkey⟩)

/-- Witness for the amended C1 at a concrete enabled state and record. -/
theorem processChanges_suppress_amended_witness :
    (({ lastSeenChanges := [], pendingDiffs := [], isEnabled := true } : LiveState).isEnabled
        = true) ∧
    processChanges { lastSeenChanges := [], pendingDiffs := [], isEnabled := true }
        [sampleChange] true =
      { lastSeenChanges := [], pendingDiffs := [], isEnabled := true } :=
  ⟨rfl, (processChanges_suppress_amended
    { lastSeenChanges := [], pendingDiffs := [], isEnabled := true } [sampleChange] rfl).1⟩

/-! ## C3 — at-most-once delivery per key between resets -/

/-- C3: starting from a fresh tracker state (as after construction or a
reset), over any reset-free sequence of `processChanges` calls, enable /
disable toggles and timer firings — including resubmitting the same records
on every poll — each distinct change key is delivered at most once. -/
theorem live_delivery_at_most_once (evts : List LiveEvent) (k : String) (b : Bool)
    (hnr : ∀ e ∈ evts, e ≠ LiveEvent.reset) :
    ((liveRun { lastSeenChanges := [], pendingDiffs := [], isEnabled := b } evts).2.count k)
      ≤ 1 := by
  have h := liveRun_key_bound k evts
    { lastSeenChanges := [], pendingDiffs := [], isEnabled := b } hnr
    (fun hmem => absurd hmem (by simp))
  calc ((liveRun { lastSeenChanges := [], pendingDiffs := [], isEnabled := b } evts).2.count k)
      ≤ indicator (k ∉ ([] : List String)) + indicator (k ∈ ([] : List String)) := h
    _ ≤ 1 := by simp [indicator]

/-- A concrete reset-free trace: the same record is submitted on two polls
and its timer is fired twice. -/
def samplePolls : List LiveEvent :=
  [LiveEvent.process [sampleChange] false,
   LiveEvent.fire (getChangeKey sampleChange),
   LiveEvent.process [sampleChange] false,
   LiveEvent.fire (getChangeKey sampleChange)]

/-- Witness for C3 on the concrete double-poll trace. -/
theorem live_delivery_at_most_once_witness :
    (∀ e ∈ samplePolls, e ≠ LiveEvent.reset) ∧
    ((liveRun { lastSeenChanges := [], pendingDiffs := [], isEnabled := true }
        samplePolls).2.count (getChangeKey sampleChange)) ≤ 1 :=
  ⟨by decide, live_delivery_at_most_once samplePolls (getChangeKey sampleChange) true
    (by decide)⟩

/-! ## C7 — disabling cancels pending deliveries but keeps the seen-set -/

/-- C7: disabling the tracker delivers nothing, empties the pending map and
leaves the seen-set unchanged; for any key seen before the disable,
re-enabling and reprocessing any records leaves that key unscheduled, and a
timer firing for it delivers nothing. -/
theorem live_disable_frame (s : LiveState) (records : List FileChange) (skip : Bool)
    (k : String) (hk : k ∈ s.lastSeenChanges) :
    (liveStep s (.setEnabled false)).2 = [] ∧
    (liveSetEnabled s false).pendingDiffs = [] ∧
    (liveSetEnabled s false).lastSeenChanges = s.lastSeenChanges ∧
    k ∉ (processChanges (liveSetEnabled (liveSetEnabled s false) true)
        records skip).pendingDiffs ∧
    liveStep (processChanges (liveSetEnabled (liveSetEnabled s false) true) records skip)
        (.fire k)
      = (processChanges (liveSetEnabled (liveSetEnabled s false) true) records skip, []) := by
  have hks2 : k ∈ (liveSetEnabled (liveSetEnabled s false) true).lastSeenChanges := hk
  have hnot : k ∉ (processChanges (liveSetEnabled (liveSetEnabled s false) true)
      records skip).pendingDiffs := by
    intro hmem
    have h' := (processChanges_pending_of_seen _ records skip k hks2).mp hmem
    simp [liveSetEnabled] at h'
  refine ⟨rfl, rfl, rfl, hnot, ?_⟩
  simp [liveStep, hnot]

/-- Witness for C7: a state that has seen (and still has pending) the sample
key. -/
theorem live_disable_frame_witness :
    (getChangeKey sampleChange ∈
      ({ lastSeenChanges := [getChangeKey sampleChange]
         pendingDiffs := [getChangeKey sampleChange]
         isEnabled := true } : LiveState).lastSeenChanges) ∧
    (liveSetEnabled
        { lastSeenChanges := [getChangeKey sampleChange]
          pendingDiffs := [getChangeKey sampleChange]
          isEnabled := true } false).pendingDiffs = [] ∧
    getChangeKey sampleChange ∉
      (processChanges
        (liveSetEnabled (liveSetEnabled
          { lastSeenChanges := [getChangeKey sampleChange]
            pendingDiffs := [getChangeKey sampleChange]
            isEnabled := true } false) true)
        [sampleChange] false).pendingDiffs :=
  ⟨List.mem_cons_self _ _,
   (live_disable_frame
      { lastSeenChanges := [getChangeKey sampleChange]
        pendingDiffs := [getChangeKey sampleChange]
        isEnabled := true } [sampleChange] false (getChangeKey sampleChange)
      (List.mem_cons_self _ _)).2.1,
   (live_disable_frame
      { lastSeenChanges := [getChangeKey sampleChange]
        pendingDiffs := [getChangeKey sampleChange]
        isEnabled := true } [sampleChange] false (getChangeKey sampleChange)
      (List.mem_cons_self _ _)).2.2.2.1⟩

/-! ## C5 — Edit/Write items: missing path, empty strings -/

/-- A sample assistant event used to instantiate per-item theorems. -/
def sampleEvent : SessionEvent :=
  { parentUuid := some "p"
    sessionId := "s"
    gitBranch := some "g"
    type := "assistant"
    message := none
    uuid := "u"
    timestamp := "ts" }

/-- C5: an Edit/Write tool-use item with an absent or empty `file_path`
yields zero records; an Edit with a present path but empty `old_string` and
`new_string` yields one record whose `oldContent`/`newContent` are present
and empty; a Write with empty `content` still yields one record. -/
theorem edit_write_record_fields (e : SessionEvent) (id : String) (input : ToolInput) :
    (∀ name, (name = "Edit" ∨ name = "Write") → isFalsyStr input.file_path = true →
      itemChanges e (.tool_use id name input) = []) ∧
    (∀ fp, input.file_path = some fp → fp ≠ "" →
      input.old_string = some "" → input.new_string = some "" →
      itemChanges e (.tool_use id "Edit" input) =
        [{ sessionId := e.sessionId, timestamp := e.timestamp, toolName := "Edit",
           filePath := fp, oldContent := some "", newContent := some "",
           gitBranch := e.gitBranch, messageUuid := e.uuid, parentUuid := e.parentUuid }]) ∧
    (∀ fp, input.file_path = some fp → fp ≠ "" → input.content = some "" →
      itemChanges e (.tool_use id "Write" input) =
        [{ sessionId := e.sessionId, timestamp := e.timestamp, toolName := "Write",
           filePath := fp, newContent := some "",
           gitBranch := e.gitBranch, messageUuid := e.uuid, parentUuid := e.parentUuid }]) := by
  refine ⟨?_, ?_, ?_⟩
  · intro name hname hf
    rcases hname with rfl | rfl <;> simp [itemChanges, hf]
  · intro fp hfp hne h1 h2
    simp [itemChanges, isFalsyStr, hfp, hne, h1, h2]
  · intro fp hfp hne h1
    simp [itemChanges, isFalsyStr, hfp, hne, h1]

/-- Witness for C5 at concrete inputs. -/
theorem edit_write_record_fields_witness :
    itemChanges sampleEvent (.tool_use "t" "Edit" { file_path := some "" }) = [] ∧
    itemChanges sampleEvent (.tool_use "t" "Edit"
        { file_path := some "/a.txt", old_string := some "", new_string := some "" }) =
      [{ sessionId := "s", timestamp := "ts", toolName := "Edit", filePath := "/a.txt",
         oldContent := some "", newContent := some "", gitBranch := some "g",
         messageUuid := "u", parentUuid := some "p" }] ∧
    itemChanges sampleEvent (.tool_use "t" "Write"
        { file_path := some "/a.txt", content := some "" }) =
      [{ sessionId := "s", timestamp := "ts", toolName := "Write", filePath := "/a.txt",
         newContent := some "", gitBranch := some "g", messageUuid := "u",
         parentUuid := some "p" }] :=
  ⟨(edit_write_record_fields sampleEvent "t" _).1 "Edit" (Or.inl rfl) rfl,
   (edit_write_record_fields sampleEvent "t" _).2.1 "/a.txt" rfl (by decide) rfl rfl,
   (edit_write_record_fields sampleEvent "t" _).2.2 "/a.txt" rfl (by decide) rfl⟩

/-! ## C2 — shape of the heuristic records -/

/-- A heuristic-tracker state holding a non-empty before-snapshot. -/
def snapState : HeuristicState :=
  { fileSnapshots := [("file:///a.txt", "old")]
    pendingChanges := ["file:///a.txt"]
    heuristicChanges := []
    isEnabled := true }

/-- C2 counterexample: the editor-observed save path hands the stored
before-snapshot to the record, so with snapshot `"old"` and saved text
`"new"` the produced record's `oldContent` is `"old"`, not the empty
string. -/
theorem heuristic_oldContent_cex :
    ∃ r ∈ (saveTimerFire snapState "file:///a.txt" "/a.txt"
        (willSaveCapture snapState "file:///a.txt") "new" "ts0" "heuristic-1").heuristicChanges,
      r.isHeuristic = some true ∧ r.oldContent ≠ some "" := by decide

/-- C2 amended: every record any trigger path produces has
`isHeuristic = true` (and sessionId `"heuristic"`); the external-creation,
external-modification and untitled-open paths produce records with empty
`oldContent`, but the editor-observed save path's record carries the
captured before-snapshot as `oldContent` (empty only when no snapshot was
stored). -/
theorem heuristic_record_shape (s : HeuristicState)
    (uriStr fsPath fileName relativePath content saved ts uuid : String)
    (excluded hasWorkspace isFileScheme isUntitled : Bool) :
    ((onDidCreate s uriStr fsPath excluded content ts uuid).heuristicChanges
        = s.heuristicChanges ∨
      (onDidCreate s uriStr fsPath excluded content ts uuid).heuristicChanges
        = s.heuristicChanges ++ [heuristicRecord fsPath "" content ts uuid]) ∧
    ((onDidChange s uriStr fsPath excluded hasWorkspace relativePath
          content ts uuid).heuristicChanges
        = s.heuristicChanges ∨
      (onDidChange s uriStr fsPath excluded hasWorkspace relativePath
          content ts uuid).heuristicChanges
        = s.heuristicChanges ++ [heuristicRecord fsPath "" content ts uuid]) ∧
    ((onDidOpen s uriStr fileName excluded isFileScheme isUntitled
          content ts uuid).heuristicChanges
        = s.heuristicChanges ∨
      (onDidOpen s uriStr fileName excluded isFileScheme isUntitled
          content ts uuid).heuristicChanges
        = s.heuristicChanges ++ [heuristicRecord fileName "" content ts uuid]) ∧
    ((saveTimerFire s uriStr fileName (willSaveCapture s uriStr)
          saved ts uuid).heuristicChanges
        = s.heuristicChanges ∨
      (saveTimerFire s uriStr fileName (willSaveCapture s uriStr)
          saved ts uuid).heuristicChanges
        = s.heuristicChanges
            ++ [heuristicRecord fileName (willSaveCapture s uriStr) saved ts uuid]) ∧
    (∀ f b a t u, (heuristicRecord f b a t u).isHeuristic = some true ∧
      (heuristicRecord f b a t u).sessionId = "heuristic") := by
  refine ⟨?_, ?_, ?_, ?_, fun f b a t u => ⟨rfl, rfl⟩⟩
  · unfold onDidCreate
    split
    · exact Or.inl rfl
    · split
      · exact Or.inl rfl
      · split
        · exact Or.inr rfl
        · exact Or.inl rfl
  · unfold onDidChange
    split
    · exact Or.inl rfl
    · split
      · exact Or.inl rfl
      · split
        · exact Or.inl rfl
        · split
          · exact Or.inl rfl
          · split
            · exact Or.inr rfl
            · exact Or.inl rfl
  · unfold onDidOpen
    split
    · exact Or.inl rfl
    · split
      · exact Or.inl rfl
      · split
        · exact Or.inl rfl
        · dsimp only
          split
          · exact Or.inr rfl
          · exact Or.inl rfl
  · unfold saveTimerFire
    dsimp only
    split
    · exact Or.inr rfl
    · exact Or.inl rfl

/-! ## C6 — conditions under which the heuristic detector stays silent -/

/-- C6: an untracked-path change notification whose workspace-relative depth
exceeds 3 leaves the state untouched; content read after the settle delay
that is empty or at least 10000 characters produces no record; a save whose
re-read text equals the captured before-snapshot produces no record. -/
theorem heuristic_no_record_conditions (s : HeuristicState)
    (uriStr fsPath fileName relativePath content saved ts uuid : String)
    (excluded hasWorkspace : Bool) :
    (hasWorkspace = true → pathDepth relativePath > 3 →
      onDidChange s uriStr fsPath excluded hasWorkspace relativePath content ts uuid = s) ∧
    (content = "" ∨ 10000 ≤ content.length →
      (onDidChange s uriStr fsPath excluded hasWorkspace relativePath
          content ts uuid).heuristicChanges = s.heuristicChanges) ∧
    (saved = willSaveCapture s uriStr →
      (saveTimerFire s uriStr fileName (willSaveCapture s uriStr)
          saved ts uuid).heuristicChanges = s.heuristicChanges) := by
  refine ⟨?_, ?_, ?_⟩
  · intro hw hd
    unfold onDidChange
    split
    · rfl
    · split
      · rfl
      · split
        · rfl
        · split
          · rfl
          · rename_i hcond
            exact absurd (by simp [hw, hd]) hcond
  · intro hc
    unfold onDidChange
    split
    · rfl
    · split
      · rfl
      · split
        · rfl
        · split
          · rfl
          · split
            · rename_i hcond
              simp only [Bool.and_eq_true, decide_eq_true_eq] at hcond
              rcases hc with rfl | hc
              · exact absurd hcond.1 (by decide)
              · obtain ⟨h1, h2⟩ := hcond
                omega
            · rfl
  · intro hsv
    simp [saveTimerFire, hsv]

/-- Witness for C6 at concrete states and inputs. -/
theorem heuristic_no_record_conditions_witness :
    pathDepth "a/b/c/d" > 3 ∧
    onDidChange snapState "file:///w.ts" "/w.ts" false true "a/b/c/d" "x" "t0" "h0"
      = snapState ∧
    (onDidChange snapState "file:///w.ts" "/w.ts" false true "a" "" "t0" "h0").heuristicChanges
      = snapState.heuristicChanges ∧
    (saveTimerFire snapState "file:///a.txt" "/a.txt"
        (willSaveCapture snapState "file:///a.txt") "old" "t0" "h0").heuristicChanges
      = snapState.heuristicChanges :=
  ⟨by decide,
   (heuristic_no_record_conditions snapState "file:///w.ts" "/w.ts" "/a.txt" "a/b/c/d"
      "x" "old" "t0" "h0" false true).1 rfl (by decide),
   (heuristic_no_record_conditions snapState "file:///w.ts" "/w.ts" "/a.txt" "a"
      "" "old" "t0" "h0" false true).2.1 (Or.inl rfl),
   (heuristic_no_record_conditions snapState "file:///a.txt" "/w.ts" "/a.txt" "a"
      "x" "old" "t0" "h0" false true).2.2 rfl⟩

/-! ## C10 — disable/reset clear state but keep the recorded changes -/

/-- C10: disabling the heuristic tracker and resetting it both clear the
snapshot map and the pending-timer map, and neither touches the accumulated
heuristic change list, which `getHeuristicChanges` still returns in full. -/
theorem heuristic_disable_reset_frame (s : HeuristicState) (docs : List VisibleDoc) :
    (hSetEnabled s false docs).fileSnapshots = [] ∧
    (hSetEnabled s false docs).pendingChanges = [] ∧
    getHeuristicChanges (hSetEnabled s false docs) = getHeuristicChanges s ∧
    (hReset s).fileSnapshots = [] ∧
    (hReset s).pendingChanges = [] ∧
    getHeuristicChanges (hReset s) = getHeuristicChanges s :=
  ⟨rfl, rfl, rfl, rfl, rfl, rfl⟩

end ClaudeCodeDiffs
